import Mathlib

/-!
Shallow embedding of the handwriting rendering pipeline from
`backend/app/services/handwriting.py` (class `Hand`, plus the `TextSegment`
and `LayoutConfig` data classes), together with proofs about the
segmentation, validation, layout, geometry-transform and rendering stages.

Real numbers from the Python source (floats) are modelled as rationals `ℚ`;
all constants of the source (1.5, 0.75, 10, 60, 1000, 75) are exact in `ℚ`.
Stroke points are `(x, y, eos)` triples, `eos` being the pen-up flag.

The helper module `app.utils.drawing` (`alphabet`, `offsets_to_coords`,
`denoise`, `align`) is not part of the available sources; where a claim
depends on it, it is modelled from the spec (see the individual doc
comments) or kept as an explicit function parameter.
-/

namespace HW

/-- A stroke point: x, y, and end-of-stroke (pen-up) flag, all numeric as in
the numpy `(N, 3)` arrays of the source. -/
abbrev Point := ℚ × ℚ × ℚ

/-- Modelled from the spec: `drawing.offsets_to_coords` step 1, "Integrate
relative offsets into absolute coordinates (running sum of dx,dy; pen-state
copied through unchanged)".  `integrateFrom` is the running sum starting at
a given point. -/
def integrateFrom : ℚ × ℚ → List Point → List Point
  | _, [] => []
  | (x, y), (dx, dy, e) :: rest =>
      (x + dx, y + dy, e) :: integrateFrom (x + dx, y + dy) rest

/-- Modelled from the spec: `drawing.offsets_to_coords`, the running sum of
the relative offsets starting from the origin. -/
def offsets_to_coords (offs : List Point) : List Point :=
  integrateFrom (0, 0) offs

/-- Modelled from the spec: helper for `denoise` — drop points whose
`(x, y)` equals the previous kept point's coordinates. -/
def dedupFrom (prev : ℚ × ℚ) : List Point → List Point
  | [] => []
  | p :: rest =>
      if p.1 = prev.1 ∧ p.2.1 = prev.2 then dedupFrom prev rest
      else p :: dedupFrom (p.1, p.2.1) rest

/-- Modelled from the spec: `drawing.denoise` step 2, "drop
degenerate/duplicate points introduced by the sampler (implementation-defined
smoothing; must be deterministic given identical input)" — modelled as
dropping consecutive duplicate coordinates. -/
def denoise : List Point → List Point
  | [] => []
  | p :: rest => p :: dedupFrom (p.1, p.2.1) rest

/-- The in-place scaling step of `Hand._draw_segment`:
`offsets[:, :2] *= 1.5 * segment.scale` — each relative offset's x and y are
multiplied by `1.5 × scale`, the pen flag is untouched. -/
def scaleOffsets (scale : ℚ) (offs : List Point) : List Point :=
  offs.map fun p => (3 / 2 * scale * p.1, 3 / 2 * scale * p.2.1, p.2.2)

/-- Coordinate-wise minimum of the x components, as computed by
`strokes[:, :2].min(axis=0)` in `Hand._draw_segment` (meaningful only on a
non-empty list; returns 0 on `[]`). -/
def minX : List Point → ℚ
  | [] => 0
  | p :: ps => ps.foldl (fun m q => min m q.1) p.1

/-- Coordinate-wise minimum of the y components, as computed by
`strokes[:, :2].min(axis=0)` in `Hand._draw_segment`. -/
def minY : List Point → ℚ
  | [] => 0
  | p :: ps => ps.foldl (fun m q => min m q.2.1) p.2.1

/-- The alignment step `strokes[:, :2] = drawing.align(strokes[:, :2])`:
the xy columns pass through `alignF` and are re-joined with the untouched
pen column. -/
def alignXY (alignF : List (ℚ × ℚ) → List (ℚ × ℚ)) (l : List Point) :
    List Point :=
  ((alignF (l.map fun p => (p.1, p.2.1))).zip (l.map fun p => p.2.2)).map
    fun pe => (pe.1.1, pe.1.2, pe.2)

/-- The vertical flip `strokes[:, 1] *= -1`. -/
def flipY (l : List Point) : List Point :=
  l.map fun p => (p.1, -p.2.1, p.2.2)

/-- The translation `strokes[:, :2] += [x_position - x_min, y_position -
y_min]` of `Hand._draw_segment`, moving the bounding-box minimum onto the
anchor. -/
def translateToAnchor (ax ay : ℚ) (l : List Point) : List Point :=
  l.map fun p => (p.1 + (ax - minX l), p.2.1 + (ay - minY l), p.2.2)

/-- The geometry transform of `Hand._draw_segment`, producing the positioned
point sequence of the emitted SVG path.  `denoiseF` stands for
`drawing.denoise` and `alignF` for `drawing.align` (both live in the
unavailable `app.utils.drawing`; they are kept as parameters).  Mirrors the
source exactly: integrate, denoise (the result of which the source then
overwrites), scale the raw offsets in place by `1.5 * scale`, re-integrate,
align the xy columns, flip y, and translate so the bounding-box minimum
lands on `(ax, ay)`. -/
def draw_segment (denoiseF : List Point → List Point)
    (alignF : List (ℚ × ℚ) → List (ℚ × ℚ))
    (offs : List Point) (scale ax ay : ℚ) : List Point :=
  let _strokes₁ := denoiseF (offsets_to_coords offs)
  translateToAnchor ax ay
    (flipY (alignXY alignF (offsets_to_coords (scaleOffsets scale offs))))

/-- The same transform with the dead denoise step removed: steps (3)–(6) of
the spec applied directly to the raw offsets. -/
def draw_segment_no_denoise (alignF : List (ℚ × ℚ) → List (ℚ × ℚ))
    (offs : List Point) (scale ax ay : ℚ) : List Point :=
  translateToAnchor ax ay
    (flipY (alignXY alignF (offsets_to_coords (scaleOffsets scale offs))))

/-- One call of `Hand._draw_segment` including its side effect: the source
line `offsets[:, :2] *= 1.5 * segment.scale` multiplies `segment.strokes`
itself in place (the local `offsets` aliases the stored array), so the call
returns both the emitted path and the new contents of `segment.strokes`. -/
def draw_segment_run (denoiseF : List Point → List Point)
    (alignF : List (ℚ × ℚ) → List (ℚ × ℚ))
    (offs : List Point) (scale ax ay : ℚ) : List Point × List Point :=
  (draw_segment denoiseF alignF offs scale ax ay, scaleOffsets scale offs)

/-- The `TextSegment` class: a unit of text with independent styling.
`strokes` is `none` until the sampling stage populates it. -/
structure TextSegment where
  text : List Char
  style_id : ℤ := 0
  bias : ℚ := 1 / 2
  stroke_color : String := "black"
  stroke_width : ℚ := 2
  scale : ℚ := 1
  strokes : Option (List Point) := none
deriving DecidableEq, Repr, Inhabited

/-- The `LayoutConfig` class: page-level typesetting rules. -/
structure LayoutConfig where
  line_spacing : ℚ := 6 / 5
  word_spacing : ℚ := 1
  char_spacing : ℚ := 1
  alignment : String := "left"
  max_width : Option ℚ := none
deriving DecidableEq, Repr

/-- Per-segment layout metrics, as the dictionaries built by
`Hand._calculate_segment_metrics`. -/
structure Metrics where
  natural_width : ℚ
  x_position : ℚ
  width : ℚ
deriving DecidableEq, Repr

/-- Width estimate of `Hand._calculate_segment_metrics`:
`len(segment.text) * 10 * segment.scale`. -/
def estWidth (s : TextSegment) : ℚ :=
  (s.text.length : ℚ) * 10 * s.scale

/-- The interstitial space width `10 * layout_config.word_spacing`. -/
def spaceWidth (cfg : LayoutConfig) : ℚ :=
  10 * cfg.word_spacing

/-- The accumulated `total_natural_width` of
`Hand._calculate_segment_metrics`: sum of the estimated widths plus one
interstitial `space` after every segment but the last. -/
def totalNaturalWidth (space : ℚ) : List TextSegment → ℚ
  | [] => 0
  | [s] => estWidth s
  | s :: rest => estWidth s + space + totalNaturalWidth space rest

/-- The starting x offset chosen by alignment in
`Hand._calculate_segment_metrics`: center and right have formulas, anything
else (left, and also justify) starts at 0. -/
def startX (cfg : LayoutConfig) (total_width tnw : ℚ) : ℚ :=
  if cfg.alignment = "center" then (total_width - tnw) / 2
  else if cfg.alignment = "right" then total_width - tnw
  else 0

/-- The position-assignment walk of `Hand._calculate_segment_metrics`: each
segment gets the running x, which then advances by its natural width plus
the interstitial `space` (the advance past the last segment is unused). -/
def assignPositions (space : ℚ) (x : ℚ) : List TextSegment → List Metrics
  | [] => []
  | s :: rest =>
      ⟨estWidth s, x, estWidth s⟩ ::
        assignPositions space (x + estWidth s + space) rest

/-- `Hand._calculate_segment_metrics`: estimate widths, pick the alignment
start offset, then walk left to right assigning positions. -/
def calculate_segment_metrics (line_segments : List TextSegment)
    (total_width : ℚ) (cfg : LayoutConfig) : List Metrics :=
  assignPositions (spaceWidth cfg)
    (startX cfg total_width (totalNaturalWidth (spaceWidth cfg) line_segments))
    line_segments

/-- The base line height of the `Hand` class (`self.base_line_height = 60`)
times the configured line-spacing multiplier. -/
def lineHeight (cfg : LayoutConfig) : ℚ :=
  60 * cfg.line_spacing

/-- Page size fixed by `Hand._draw_segments`: explicit `page_dimensions`
win; otherwise width 1000 and height `max(1, num_lines) * line_height`. -/
def viewDims (cfg : LayoutConfig) (page_dimensions : Option (ℚ × ℚ))
    (num_lines : ℕ) : ℚ × ℚ :=
  match page_dimensions with
  | some wh => wh
  | none => (1000, (max 1 num_lines : ℕ) * lineHeight cfg)

/-- Whether `Hand._draw_segments` draws a segment: it is skipped when
`segment.strokes is None or len(segment.text) == 0`. -/
def drawable (s : TextSegment) : Bool :=
  s.strokes.isSome && s.text.length != 0

/-- The paths one line contributes in `Hand._draw_segments`: each drawable
segment is drawn at `(metrics x_position + left_margin, y_position)`.
Emissions are recorded as `(x, y, segment)` triples. -/
def lineEmissions (cfg : LayoutConfig) (left_margin usable_width y : ℚ)
    (line_segments : List TextSegment) : List (ℚ × ℚ × TextSegment) :=
  (line_segments.zip (calculate_segment_metrics line_segments usable_width cfg)).filterMap
    fun sm => if drawable sm.1 then some (sm.2.x_position + left_margin, y, sm.1)
      else none

/-- The per-line loop of `Hand._draw_segments`: an empty line only advances
`y_position`; a non-empty line draws its segments at the current y and then
advances. -/
def drawLinesFrom (cfg : LayoutConfig) (left_margin usable_width : ℚ) :
    ℚ → List (List TextSegment) → List (ℚ × ℚ × TextSegment)
  | _, [] => []
  | y, line :: rest =>
      (if line = [] then [] else lineEmissions cfg left_margin usable_width y line)
        ++ drawLinesFrom cfg left_margin usable_width (y + lineHeight cfg) rest

/-- `Hand._draw_segments`: compute the page size and usable width, start
`y_position` at `top_margin + line_height * 0.75`, and process each line.
The result is the list of emitted segment paths with their anchor
positions; the page size is returned alongside. -/
def draw_segments (segments_by_line : List (List TextSegment))
    (cfg : LayoutConfig) (page_dimensions : Option (ℚ × ℚ))
    (margins : Option (ℚ × ℚ × ℚ × ℚ)) :
    (ℚ × ℚ) × List (ℚ × ℚ × TextSegment) :=
  let wh := viewDims cfg page_dimensions segments_by_line.length
  let m := margins.getD (0, 0, 0, 0)
  let left_margin := m.1
  let top_margin := m.2.1
  let right_margin := m.2.2.1
  let usable_width := wh.1 - left_margin - right_margin
  (wh, drawLinesFrom cfg left_margin usable_width
    (top_margin + lineHeight cfg * (3 / 4)) segments_by_line)

/-- The default styling parameters threaded through `Hand.process_text`
(`default_style`, `default_bias`, `default_color`, `default_width`,
`default_scale`). -/
structure SegDefaults where
  style : ℤ := 0
  bias : ℚ := 1 / 2
  color : String := "black"
  width : ℚ := 2
  scale : ℚ := 1
deriving DecidableEq, Repr

/-- Build a `TextSegment` from text and the default styling, as every
branch of `Hand.process_text` does. -/
def mkSegment (d : SegDefaults) (t : List Char) : TextSegment :=
  ⟨t, d.style, d.bias, d.color, d.width, d.scale, none⟩

/-- The whitespace test of Python's `str.split()` with no separator
argument (ASCII whitespace, as relevant to the supported alphabet). -/
def isPySpace (c : Char) : Bool :=
  c == ' ' || c == '\t' || c == '\n' || c == '\r' || c == '\x0b' || c == '\x0c'

/-- Python's `line.split()`: split on runs of whitespace, dropping empty
tokens (so leading, trailing and consecutive whitespace vanish). -/
def pySplit (l : List Char) : List (List Char) :=
  (l.foldr
    (fun c acc =>
      if isPySpace c then [] :: acc
      else match acc with
        | [] => [[c]]
        | w :: ws => (c :: w) :: ws)
    []).filter (· ≠ [])

/-- The `character` branch of `Hand.process_text`: one segment per
character of the line that lies in the alphabet, others silently skipped. -/
def charSegments (alpha : Char → Bool) (d : SegDefaults) :
    List Char → List TextSegment
  | [] => []
  | c :: rest =>
      if alpha c then mkSegment d [c] :: charSegments alpha d rest
      else charSegments alpha d rest

/-- `Hand.process_text`: split the text into lines on newlines first, then
segment each line according to the mode. `alpha` stands for membership in
`drawing.alphabet` (the unavailable `app.utils.drawing` module). An
unrecognized mode leaves every line empty, as in the source's if/elif
chain. -/
def process_text (alpha : Char → Bool) (text : List Char)
    (segmentation : String) (d : SegDefaults) : List (List TextSegment) :=
  (text.splitOn '\n').map fun line =>
    if segmentation = "line" then
      if line ≠ [] then [mkSegment d line] else []
    else if segmentation = "word" then
      (pySplit line).map (mkSegment d)
    else if segmentation = "character" then
      charSegments alpha d line
    else []

/-- The `ValueError` raised by `Hand._validate_segments`, carrying the
coordinates it cites. -/
inductive ValidationError where
  | tooLong (lineIdx segIdx chars : ℕ)
  | invalidChar (lineIdx segIdx : ℕ) (c : Char)
deriving DecidableEq, Repr

/-- The line index cited by a validation error. -/
def ValidationError.line : ValidationError → ℕ
  | .tooLong i _ _ => i
  | .invalidChar i _ _ => i

/-- The segment index cited by a validation error. -/
def ValidationError.segment : ValidationError → ℕ
  | .tooLong _ j _ => j
  | .invalidChar _ j _ => j

/-- First character of a text outside the alphabet, scanning left to right
as the `for char in segment.text` loop does. -/
def firstBadChar (alpha : Char → Bool) : List Char → Option Char
  | [] => none
  | c :: cs => if alpha c then firstBadChar alpha cs else some c

/-- Check of one segment in `Hand._validate_segments`: the length test
comes first, then the character scan. -/
def checkSegment (alpha : Char → Bool) (lineIdx segIdx : ℕ)
    (s : TextSegment) : Option ValidationError :=
  if 75 < s.text.length then some (.tooLong lineIdx segIdx s.text.length)
  else match firstBadChar alpha s.text with
    | some c => some (.invalidChar lineIdx segIdx c)
    | none => none

/-- The inner loop of `Hand._validate_segments` over one line's segments,
`segIdx` being the enumeration index of the first element. -/
def checkLine (alpha : Char → Bool) (lineIdx : ℕ) :
    ℕ → List TextSegment → Option ValidationError
  | _, [] => none
  | segIdx, s :: rest =>
      match checkSegment alpha lineIdx segIdx s with
      | some e => some e
      | none => checkLine alpha lineIdx (segIdx + 1) rest

/-- The outer loop of `Hand._validate_segments` over the lines, `lineIdx`
being the enumeration index of the first element. -/
def checkLines (alpha : Char → Bool) :
    ℕ → List (List TextSegment) → Option ValidationError
  | _, [] => none
  | lineIdx, l :: rest =>
      match checkLine alpha lineIdx 0 l with
      | some e => some e
      | none => checkLines alpha (lineIdx + 1) rest

/-- `Hand._validate_segments`: scan lines in order, segments in order
within each line, and raise on the first violation. -/
def validate_segments (alpha : Char → Bool)
    (segments_by_line : List (List TextSegment)) : Except ValidationError Unit :=
  match checkLines alpha 0 segments_by_line with
  | some e => .error e
  | none => .ok ()

/-- Scatter sampled stroke sequences back onto the segments in flattening
order, as `Hand._sample_segments` does after its batched `_sample` call. -/
def scatterStrokes : List (List TextSegment) → List (List Point) →
    List (List TextSegment)
  | [], _ => []
  | l :: rest, ss =>
      ((l.zip (ss.take l.length)).map fun p => { p.1 with strokes := some p.2 })
        :: scatterStrokes rest (ss.drop l.length)

/-- `Hand._sample_segments` with the model call abstracted: flatten all
segments, run the batched sampler once, and assign strokes back
positionally; with no segments the sampler is not invoked. -/
def sample_segments (sample : List TextSegment → List (List Point))
    (segments_by_line : List (List TextSegment)) : List (List TextSegment) :=
  if segments_by_line.flatten = [] then segments_by_line
  else scatterStrokes segments_by_line (sample segments_by_line.flatten)

/-- `Hand.write_segments` (with the SVG serialization abstracted away):
validate, then sample, then draw.  Validation failure aborts before
sampling — the `sample` collaborator is only reached on the `.ok` branch. -/
def write_segments (alpha : Char → Bool)
    (sample : List TextSegment → List (List Point))
    (segments_by_line : List (List TextSegment)) (cfg : LayoutConfig)
    (page_dimensions : Option (ℚ × ℚ)) (margins : Option (ℚ × ℚ × ℚ × ℚ)) :
    Except ValidationError ((ℚ × ℚ) × List (ℚ × ℚ × TextSegment)) :=
  match validate_segments alpha segments_by_line with
  | .error e => .error e
  | .ok () =>
      .ok (draw_segments (sample_segments sample segments_by_line) cfg
        page_dimensions margins)

/-- The per-index lookup pattern of `Hand.write`:
`xs[i] if xs and i < len(xs) else default`. -/
def optIdx (o : Option (List α)) (i : ℕ) (d : α) : α :=
  match o with
  | none => d
  | some l => if h : i < l.length then l.get ⟨i, h⟩ else d

/-- The backward-compatible `Hand.write` entry point up to the point where
it delegates to `write_segments`: each input line becomes one
single-segment line, with per-line styling looked up by index and falling
back to the documented defaults. -/
def write (lines : List (List Char)) (biases : Option (List ℚ))
    (styles : Option (List ℤ)) (stroke_colors : Option (List String))
    (stroke_widths : Option (List ℚ)) (scales : Option (List ℚ)) :
    List (List TextSegment) :=
  lines.enum.map fun il =>
    [⟨il.2, optIdx styles il.1 0, optIdx biases il.1 (1 / 2),
      optIdx stroke_colors il.1 "black", optIdx stroke_widths il.1 2,
      optIdx scales il.1 1, none⟩]

/-! ## Helper lemmas -/

theorem integrateFrom_length (l : List Point) :
    ∀ st, (integrateFrom st l).length = l.length := by
  induction l with
  | nil => intro st; rfl
  | cons p rest ih =>
      intro st
      obtain ⟨x, y⟩ := st
      obtain ⟨dx, dy, e⟩ := p
      simp [integrateFrom, ih]

theorem offsets_to_coords_length (l : List Point) :
    (offsets_to_coords l).length = l.length :=
  integrateFrom_length l (0, 0)

theorem scaleOffsets_length (scale : ℚ) (l : List Point) :
    (scaleOffsets scale l).length = l.length := by
  simp [scaleOffsets]

theorem alignXY_length (alignF : List (ℚ × ℚ) → List (ℚ × ℚ))
    (halign : ∀ l', (alignF l').length = l'.length) (l : List Point) :
    (alignXY alignF l).length = l.length := by
  simp [alignXY, halign]

theorem flipY_length (l : List Point) : (flipY l).length = l.length := by
  simp [flipY]

theorem foldl_min_comp_add (c : ℚ) (g : Point → ℚ) (l : List Point) :
    ∀ a : ℚ,
      l.foldl (fun m q => min m (g q + c)) (a + c)
        = l.foldl (fun m q => min m (g q)) a + c := by
  induction l with
  | nil => intro a; rfl
  | cons q qs ih =>
      intro a
      simp only [List.foldl_cons]
      rw [min_add_add_right]
      exact ih (min a (g q))

theorem minX_map_add (tx ty : ℚ) (l : List Point) (h : l ≠ []) :
    minX (l.map fun p => (p.1 + tx, p.2.1 + ty, p.2.2)) = minX l + tx := by
  cases l with
  | nil => exact absurd rfl h
  | cons p ps =>
      simp only [List.map_cons, minX, List.foldl_map]
      exact foldl_min_comp_add tx (fun q => q.1) ps p.1

theorem minY_map_add (tx ty : ℚ) (l : List Point) (h : l ≠ []) :
    minY (l.map fun p => (p.1 + tx, p.2.1 + ty, p.2.2)) = minY l + ty := by
  cases l with
  | nil => exact absurd rfl h
  | cons p ps =>
      simp only [List.map_cons, minY, List.foldl_map]
      exact foldl_min_comp_add ty (fun q => q.2.1) ps p.2.1

theorem translateToAnchor_length (ax ay : ℚ) (l : List Point) :
    (translateToAnchor ax ay l).length = l.length := by
  simp [translateToAnchor]

theorem draw_segment_length (denoiseF : List Point → List Point)
    (alignF : List (ℚ × ℚ) → List (ℚ × ℚ)) (offs : List Point)
    (scale ax ay : ℚ) (halign : ∀ l, (alignF l).length = l.length) :
    (draw_segment denoiseF alignF offs scale ax ay).length = offs.length := by
  show (translateToAnchor ax ay (flipY (alignXY alignF
    (offsets_to_coords (scaleOffsets scale offs))))).length = offs.length
  rw [translateToAnchor_length, flipY_length, alignXY_length _ halign,
    offsets_to_coords_length, scaleOffsets_length]

theorem translateToAnchor_min (ax ay : ℚ) (l : List Point) (h : l ≠ []) :
    minX (translateToAnchor ax ay l) = ax
    ∧ minY (translateToAnchor ax ay l) = ay := by
  unfold translateToAnchor
  refine ⟨?_, ?_⟩
  · rw [minX_map_add _ _ l h]; ring
  · rw [minY_map_add _ _ l h]; ring

/-! ## Claims about the geometry transform -/

/-- Claim C1: for every non-empty stroke offset sequence and every anchor
position `(ax, ay)` supplied as the segment's layout position, the geometry
transform of `Hand._draw_segment` produces a positioned point sequence
whose coordinate-wise bounding-box minimum equals exactly `(ax, ay)`,
regardless of the segment's internal geometry, its scale, the denoise
function, and the result of alignment (any point-count-preserving
alignment). -/
theorem draw_segment_min_eq_anchor (denoiseF : List Point → List Point)
    (alignF : List (ℚ × ℚ) → List (ℚ × ℚ)) (offs : List Point)
    (scale ax ay : ℚ) (halign : ∀ l, (alignF l).length = l.length)
    (hne : offs ≠ []) :
    minX (draw_segment denoiseF alignF offs scale ax ay) = ax
    ∧ minY (draw_segment denoiseF alignF offs scale ax ay) = ay := by
  have hlen : (flipY (alignXY alignF
      (offsets_to_coords (scaleOffsets scale offs)))).length = offs.length := by
    rw [flipY_length, alignXY_length _ halign, offsets_to_coords_length,
      scaleOffsets_length]
  have hne' : flipY (alignXY alignF
      (offsets_to_coords (scaleOffsets scale offs))) ≠ [] := by
    intro hc
    apply hne
    rw [hc] at hlen
    exact List.length_eq_zero.mp hlen.symm
  exact translateToAnchor_min ax ay _ hne'

/-- Witness for C1 at a concrete input: one offset `(1, 2, 0)`, scale 1,
anchor `(5, 7)`. -/
theorem draw_segment_min_eq_anchor_witness :
    minX (draw_segment denoise id [((1 : ℚ), (2 : ℚ), (0 : ℚ))] 1 5 7) = 5
    ∧ minY (draw_segment denoise id [((1 : ℚ), (2 : ℚ), (0 : ℚ))] 1 5 7) = 7 :=
  draw_segment_min_eq_anchor denoise id [((1 : ℚ), (2 : ℚ), (0 : ℚ))] 1 5 7
    (fun _ => rfl) (List.cons_ne_nil _ _)

/-- Claim C2 counterexample: the geometry emitted by `Hand._draw_segment`
is not a function of the denoised points.  The two offset sequences below
have identical denoised integrated points, yet the emitted paths differ
(the second keeps its sampler-duplicated point), because the source
overwrites the denoised array with a re-integration of the raw offsets. -/
theorem draw_segment_denoise_not_fed :
    denoise (offsets_to_coords [((1 : ℚ), (1 : ℚ), (0 : ℚ))])
      = denoise (offsets_to_coords [((1 : ℚ), (1 : ℚ), (0 : ℚ)), (0, 0, 0)])
    ∧ draw_segment denoise id [((1 : ℚ), (1 : ℚ), (0 : ℚ))] 1 0 0
      ≠ draw_segment denoise id [((1 : ℚ), (1 : ℚ), (0 : ℚ)), (0, 0, 0)] 1 0 0 := by
  constructor
  · norm_num [denoise, offsets_to_coords, integrateFrom, dedupFrom]
  · intro h
    have hl := congrArg List.length h
    rw [draw_segment_length denoise id [((1 : ℚ), (1 : ℚ), (0 : ℚ))] 1 0 0
        (fun _ => rfl),
      draw_segment_length denoise id [((1 : ℚ), (1 : ℚ), (0 : ℚ)), (0, 0, 0)]
        1 0 0 (fun _ => rfl)] at hl
    simp at hl

/-- Claim C2 (amended): the transform performs integrate → denoise → scale
the raw offsets by `1.5 × scale` → re-integrate → align → flip → translate,
but the denoising result is discarded: the emitted geometry is independent
of the denoise function and equals the pipeline applied to the raw offsets
(scaled before re-integration) with no denoising. -/
theorem draw_segment_discards_denoise (d₁ d₂ : List Point → List Point)
    (alignF : List (ℚ × ℚ) → List (ℚ × ℚ)) (offs : List Point)
    (scale ax ay : ℚ) :
    draw_segment d₁ alignF offs scale ax ay
      = draw_segment d₂ alignF offs scale ax ay
    ∧ draw_segment d₁ alignF offs scale ax ay
      = draw_segment_no_denoise alignF offs scale ax ay :=
  ⟨rfl, rfl⟩

/-- Claim C3 (code bug, evaluated at the failing input): drawing mutates
the segment.  `offsets[:, :2] *= 1.5 * segment.scale` writes through the
alias to `segment.strokes`, so after one draw the stored strokes differ
from the sampled ones, and drawing the same segment again from the
resulting state yields a different (1.5×-wider) path. -/
theorem draw_segment_run_mutates :
    (draw_segment_run denoise id
        [((0 : ℚ), (0 : ℚ), (0 : ℚ)), (1, 0, 0)] 1 0 0).2
      ≠ [((0 : ℚ), (0 : ℚ), (0 : ℚ)), (1, 0, 0)]
    ∧ (draw_segment_run denoise id
        ((draw_segment_run denoise id
          [((0 : ℚ), (0 : ℚ), (0 : ℚ)), (1, 0, 0)] 1 0 0).2) 1 0 0).1
      ≠ (draw_segment_run denoise id
          [((0 : ℚ), (0 : ℚ), (0 : ℚ)), (1, 0, 0)] 1 0 0).1 := by
  constructor
  · norm_num [draw_segment_run, scaleOffsets]
  · norm_num [draw_segment_run, draw_segment, translateToAnchor, flipY,
      alignXY, offsets_to_coords, integrateFrom, scaleOffsets, minX, minY,
      min_def]

/-! ## Validator lemmas -/

/-- A segment passing `Hand._validate_segments`: text at most 75
characters, all of them in the alphabet. -/
def segOk (alpha : Char → Bool) (s : TextSegment) : Bool :=
  decide (s.text.length ≤ 75) && s.text.all alpha

theorem firstBadChar_none_iff (alpha : Char → Bool) (l : List Char) :
    firstBadChar alpha l = none ↔ l.all alpha = true := by
  induction l with
  | nil => simp [firstBadChar]
  | cons c cs ih =>
      by_cases hc : alpha c = true
      · simp [firstBadChar, hc, ih]
      · simp [firstBadChar, hc]

theorem checkSegment_none_of_ok (alpha : Char → Bool) (i j : ℕ)
    (s : TextSegment) (h : segOk alpha s = true) :
    checkSegment alpha i j s = none := by
  simp only [segOk, Bool.and_eq_true, decide_eq_true_eq] at h
  rw [checkSegment, if_neg (by omega)]
  rw [(firstBadChar_none_iff alpha s.text).mpr h.2]

theorem checkSegment_some_of_bad (alpha : Char → Bool) (i j : ℕ)
    (s : TextSegment) (h : segOk alpha s = false) :
    ∃ e, checkSegment alpha i j s = some e ∧ e.line = i ∧ e.segment = j := by
  simp only [segOk, Bool.and_eq_false_iff, decide_eq_false_iff_not,
    Nat.not_le] at h
  by_cases h75 : 75 < s.text.length
  · exact ⟨.tooLong i j s.text.length, by rw [checkSegment, if_pos h75], rfl, rfl⟩
  · have hall : s.text.all alpha = false := by
      rcases h with h | h
      · exact absurd h h75
      · exact h
    have : firstBadChar alpha s.text ≠ none := by
      intro hc
      rw [(firstBadChar_none_iff alpha s.text).mp hc] at hall
      simp at hall
    obtain ⟨c, hc⟩ := Option.ne_none_iff_exists'.mp this
    exact ⟨.invalidChar i j c, by rw [checkSegment, if_neg h75, hc], rfl, rfl⟩

theorem checkLine_none (alpha : Char → Bool) (i : ℕ) (l : List TextSegment)
    (h : ∀ s ∈ l, segOk alpha s = true) :
    ∀ j0, checkLine alpha i j0 l = none := by
  induction l with
  | nil => intro j0; rfl
  | cons s rest ih =>
      intro j0
      rw [checkLine,
        checkSegment_none_of_ok alpha i j0 s (h s (List.mem_cons_self s rest))]
      exact ih (fun s hs => h s (List.mem_cons_of_mem _ hs)) (j0 + 1)

theorem checkLine_spec (alpha : Char → Bool) (i : ℕ) (l : List TextSegment) :
    ∀ j0 j, j < l.length →
      segOk alpha (l.getD j default) = false →
      (∀ j' < j, segOk alpha (l.getD j' default) = true) →
      ∃ e, checkLine alpha i j0 l = some e ∧ e.line = i ∧ e.segment = j0 + j := by
  induction l with
  | nil => intro j0 j h; exact absurd h (by simp)
  | cons s rest ih =>
      intro j0 j hj hbad hpre
      cases j with
      | zero =>
          obtain ⟨e, he, hl, hs⟩ := checkSegment_some_of_bad alpha i j0 s hbad
          exact ⟨e, by rw [checkLine, he], hl, by omega⟩
      | succ j =>
          have hs : segOk alpha s = true := hpre 0 (Nat.succ_pos j)
          rw [checkLine, checkSegment_none_of_ok alpha i j0 s hs]
          obtain ⟨e, he, hl, hseg⟩ := ih (j0 + 1) j (by simpa using hj)
            (by simpa using hbad)
            (fun j' hj' => hpre (j' + 1) (by omega))
          exact ⟨e, he, hl, by omega⟩

theorem checkLines_none (alpha : Char → Bool)
    (sbl : List (List TextSegment))
    (h : ∀ l ∈ sbl, ∀ s ∈ l, segOk alpha s = true) :
    ∀ i0, checkLines alpha i0 sbl = none := by
  induction sbl with
  | nil => intro i0; rfl
  | cons l rest ih =>
      intro i0
      rw [checkLines, checkLine_none alpha i0 l
        (h l (List.mem_cons_self l rest)) 0]
      exact ih (fun l' hl' => h l' (List.mem_cons_of_mem _ hl')) (i0 + 1)

theorem checkLines_spec (alpha : Char → Bool)
    (sbl : List (List TextSegment)) :
    ∀ i0 i j, i < sbl.length → j < (sbl.getD i []).length →
      segOk alpha ((sbl.getD i []).getD j default) = false →
      (∀ i' < sbl.length, ∀ j' < (sbl.getD i' []).length,
        ((i' < i ∨ (i' = i ∧ j' < j)) →
          segOk alpha ((sbl.getD i' []).getD j' default) = true)) →
      ∃ e, checkLines alpha i0 sbl = some e
        ∧ e.line = i0 + i ∧ e.segment = j := by
  induction sbl with
  | nil => intro i0 i j h; exact absurd h (by simp)
  | cons l rest ih =>
      intro i0 i j hi hj hbad hpre
      cases i with
      | zero =>
          have hjl : j < l.length := by simpa using hj
          obtain ⟨e, he, hl, hs⟩ := checkLine_spec alpha i0 l 0 j hjl
            (by simpa using hbad)
            (fun j' hj' => by
              have h2 := hpre 0 (Nat.succ_pos _) j' (by simp; omega)
                (Or.inr ⟨rfl, hj'⟩)
              simpa using h2)
          exact ⟨e, by rw [checkLines, he], by omega, by omega⟩
      | succ i =>
          have hline0 : checkLine alpha i0 0 l = none := by
            apply checkLine_none
            intro s hs
            obtain ⟨k, hk, hks⟩ := List.mem_iff_getElem.mp hs
            have h2 := hpre 0 (Nat.zero_lt_succ _) k (by simpa using hk)
              (Or.inl (Nat.zero_lt_succ _))
            rw [List.getD_cons_zero] at h2
            rw [← hks, ← List.getD_eq_getElem l default hk]
            exact h2
          rw [checkLines, hline0]
          obtain ⟨e, he, hl, hseg⟩ := ih (i0 + 1) i j (by simpa using hi)
            (by simpa using hj) (by simpa using hbad)
            (fun i' hi' j' hj' hcond => by
              have h2 := hpre (i' + 1) (by omega) j' (by simpa using hj')
                (by rcases hcond with hc | ⟨hc, hc2⟩
                    · exact Or.inl (by omega)
                    · exact Or.inr ⟨by omega, hc2⟩)
              simpa using h2)
          exact ⟨e, he, by omega, hseg⟩

/-- Claim C4: `validate` accepts exactly when every segment's text has
length ≤ 75 and only alphabet characters; on any input whose first
violation in scan order is at line `i`, segment `j`, it raises a
`ValidationError` citing `(i, j)`; and a validation error aborts
`write_segments` before any sampling occurs — the returned error is the
same for every sampler. -/
theorem validate_segments_spec (alpha : Char → Bool)
    (sbl : List (List TextSegment)) :
    ((∀ l ∈ sbl, ∀ s ∈ l, segOk alpha s = true) →
      validate_segments alpha sbl = .ok ())
    ∧ (∀ i j, i < sbl.length → j < (sbl.getD i []).length →
        segOk alpha ((sbl.getD i []).getD j default) = false →
        (∀ i' < sbl.length, ∀ j' < (sbl.getD i' []).length,
          ((i' < i ∨ (i' = i ∧ j' < j)) →
            segOk alpha ((sbl.getD i' []).getD j' default) = true)) →
        ∃ e, validate_segments alpha sbl = .error e
          ∧ e.line = i ∧ e.segment = j)
    ∧ (∀ e, validate_segments alpha sbl = .error e →
        ∀ sample cfg pd m,
          write_segments alpha sample sbl cfg pd m = .error e) := by
  refine ⟨?_, ?_, ?_⟩
  · intro hall
    rw [validate_segments, checkLines_none alpha sbl hall 0]
  · intro i j hi hj hbad hpre
    obtain ⟨e, he, hl, hs⟩ := checkLines_spec alpha sbl 0 i j hi hj hbad hpre
    exact ⟨e, by rw [validate_segments, he], by omega, hs⟩
  · intro e he sample cfg pd m
    rw [write_segments, he]

/-- Witness for C4 at a concrete input: alphabet `{a, b, c, d}`, two lines
where line 1's segment 1 contains the unsupported character `!`. -/
theorem validate_segments_spec_witness :
    ∃ e, validate_segments (fun c => c == 'a' || c == 'b' || c == 'c' || c == 'd')
        [[⟨['a', 'b'], 0, 1 / 2, "black", 2, 1, none⟩],
         [⟨['c'], 0, 1 / 2, "black", 2, 1, none⟩,
          ⟨['d', '!'], 0, 1 / 2, "black", 2, 1, none⟩]] = .error e
      ∧ e.line = 1 ∧ e.segment = 1 :=
  (validate_segments_spec
    (fun c => c == 'a' || c == 'b' || c == 'c' || c == 'd')
    [[⟨['a', 'b'], 0, 1 / 2, "black", 2, 1, none⟩],
     [⟨['c'], 0, 1 / 2, "black", 2, 1, none⟩,
      ⟨['d', '!'], 0, 1 / 2, "black", 2, 1, none⟩]]).2.1 1 1
    (by decide) (by decide) (by decide) (by decide)

/-! ## Layout engine lemmas -/

theorem assignPositions_length (space : ℚ) (segs : List TextSegment) :
    ∀ x, (assignPositions space x segs).length = segs.length := by
  induction segs with
  | nil => intro x; rfl
  | cons s rest ih => intro x; simp [assignPositions, ih]

theorem assignPositions_getD_nw (space : ℚ) (segs : List TextSegment) :
    ∀ x i, i < segs.length →
      ((assignPositions space x segs).getD i ⟨0, 0, 0⟩).natural_width
        = estWidth (segs.getD i default) := by
  induction segs with
  | nil => intro x i h; exact absurd h (by simp)
  | cons s rest ih =>
      intro x i h
      cases i with
      | zero => rfl
      | succ i =>
          simp only [assignPositions, List.getD_cons_succ]
          exact ih _ i (by simpa using h)

theorem assignPositions_getD_x (space : ℚ) (segs : List TextSegment) :
    ∀ x i, i + 1 < segs.length →
      ((assignPositions space x segs).getD (i + 1) ⟨0, 0, 0⟩).x_position
        = ((assignPositions space x segs).getD i ⟨0, 0, 0⟩).x_position
          + ((assignPositions space x segs).getD i ⟨0, 0, 0⟩).natural_width
          + space := by
  induction segs with
  | nil => intro x i h; exact absurd h (by simp)
  | cons s rest ih =>
      intro x i h
      cases i with
      | zero =>
          cases rest with
          | nil => exact absurd h (by simp)
          | cons r rs => rfl
      | succ i =>
          simp only [assignPositions, List.getD_cons_succ]
          exact ih _ i (by simpa using h)

theorem totalNaturalWidth_eq (space : ℚ) (segs : List TextSegment) :
    totalNaturalWidth space segs
      = (segs.map estWidth).sum + ((segs.length - 1 : ℕ) : ℚ) * space := by
  induction segs with
  | nil => simp [totalNaturalWidth]
  | cons s rest ih =>
      cases rest with
      | nil => simp [totalNaturalWidth]
      | cons r rs =>
          simp only [totalNaturalWidth, List.map_cons, List.sum_cons,
            List.length_cons, Nat.add_sub_cancel] at ih ⊢
          rw [ih]
          push_cast
          ring

/-- Claim C5: for every line of segments and usable width `W`, the layout
engine estimates each segment's natural width as
`len(text) × 10 × segment.scale`, inserts an interstitial space of width
`10 × config.word_spacing` between consecutive segments (not after the
last), computes the starting x-offset by alignment (0 for left,
`(W − total)/2` for center, `W − total` for right, justify identical to
left), assigns each segment the previous x plus its natural width plus the
space, and returns one entry per segment in input order. -/
theorem calculate_segment_metrics_spec (segs : List TextSegment) (W : ℚ)
    (cfg : LayoutConfig) :
    (calculate_segment_metrics segs W cfg).length = segs.length
    ∧ (∀ i, i < segs.length →
        ((calculate_segment_metrics segs W cfg).getD i ⟨0, 0, 0⟩).natural_width
          = ((segs.getD i default).text.length : ℚ) * 10
              * (segs.getD i default).scale)
    ∧ totalNaturalWidth (spaceWidth cfg) segs
        = (segs.map estWidth).sum
          + ((segs.length - 1 : ℕ) : ℚ) * (10 * cfg.word_spacing)
    ∧ (segs ≠ [] →
        ((calculate_segment_metrics segs W cfg).getD 0 ⟨0, 0, 0⟩).x_position
          = if cfg.alignment = "center"
              then (W - totalNaturalWidth (spaceWidth cfg) segs) / 2
            else if cfg.alignment = "right"
              then W - totalNaturalWidth (spaceWidth cfg) segs
            else 0)
    ∧ (∀ i, i + 1 < segs.length →
        ((calculate_segment_metrics segs W cfg).getD (i + 1) ⟨0, 0, 0⟩).x_position
          = ((calculate_segment_metrics segs W cfg).getD i ⟨0, 0, 0⟩).x_position
            + ((calculate_segment_metrics segs W cfg).getD i ⟨0, 0, 0⟩).natural_width
            + 10 * cfg.word_spacing)
    ∧ calculate_segment_metrics segs W { cfg with alignment := "justify" }
        = calculate_segment_metrics segs W { cfg with alignment := "left" } := by
  refine ⟨assignPositions_length _ segs _, ?_, ?_, ?_, ?_, ?_⟩
  · intro i h
    rw [calculate_segment_metrics, assignPositions_getD_nw _ segs _ i h]
    rfl
  · exact totalNaturalWidth_eq _ segs
  · intro hne
    cases segs with
    | nil => exact absurd rfl hne
    | cons s rest => rfl
  · intro i h
    exact assignPositions_getD_x _ segs _ i h
  · simp [calculate_segment_metrics, startX, spaceWidth]

/-- Witness for C5 at a concrete input: two segments of texts "ab" (scale
1) and "c" (scale 2) in a centered line of width 100. -/
theorem calculate_segment_metrics_spec_witness :
    ((calculate_segment_metrics
        [⟨['a', 'b'], 0, 1 / 2, "black", 2, 1, none⟩,
         ⟨['c'], 0, 1 / 2, "black", 2, 2, none⟩] 100
        ⟨6 / 5, 1, 1, "center", none⟩).getD 1 ⟨0, 0, 0⟩).x_position
      = ((calculate_segment_metrics
          [⟨['a', 'b'], 0, 1 / 2, "black", 2, 1, none⟩,
           ⟨['c'], 0, 1 / 2, "black", 2, 2, none⟩] 100
          ⟨6 / 5, 1, 1, "center", none⟩).getD 0 ⟨0, 0, 0⟩).x_position
        + ((calculate_segment_metrics
            [⟨['a', 'b'], 0, 1 / 2, "black", 2, 1, none⟩,
             ⟨['c'], 0, 1 / 2, "black", 2, 2, none⟩] 100
            ⟨6 / 5, 1, 1, "center", none⟩).getD 0 ⟨0, 0, 0⟩).natural_width
        + 10 * (⟨6 / 5, 1, 1, "center", none⟩ : LayoutConfig).word_spacing :=
  (calculate_segment_metrics_spec
    [⟨['a', 'b'], 0, 1 / 2, "black", 2, 1, none⟩,
     ⟨['c'], 0, 1 / 2, "black", 2, 2, none⟩] 100
    ⟨6 / 5, 1, 1, "center", none⟩).2.2.2.2.1 0 (by simp)

/-! ## Renderer lemmas -/

theorem drawLinesFrom_eq (cfg : LayoutConfig) (lm uw : ℚ)
    (lines : List (List TextSegment)) :
    ∀ y0 : ℚ, drawLinesFrom cfg lm uw y0 lines
      = ((List.range lines.length).map fun (i : ℕ) =>
          lineEmissions cfg lm uw (y0 + (i : ℚ) * lineHeight cfg)
            (lines.getD i [])).flatten := by
  induction lines with
  | nil => intro y0; rfl
  | cons l rest ih =>
      intro y0
      rw [drawLinesFrom]
      have hif : (if l = [] then []
          else lineEmissions cfg lm uw y0 l) = lineEmissions cfg lm uw y0 l := by
        by_cases hl : l = []
        · rw [if_pos hl, hl]; rfl
        · rw [if_neg hl]
      rw [hif, ih (y0 + lineHeight cfg), List.length_cons,
        List.range_succ_eq_map, List.map_cons, List.flatten_cons, List.map_map]
      congr 1
      · simp
      · apply congrArg List.flatten
        apply List.map_congr_left
        intro i _
        simp only [Function.comp_apply, Nat.succ_eq_add_one, List.getD_cons_succ]
        congr 1
        push_cast
        ring

/-- Claim C6: for every render request the y-position used to draw the
segments of line `i` (0-based, counting empty lines too) equals
`top_margin + 60 × line_spacing × (i + 0.75)`, and an empty line emits no
paths while still advancing the vertical position by one line height. -/
theorem draw_segments_y_spec (segments_by_line : List (List TextSegment))
    (cfg : LayoutConfig) (pd : Option (ℚ × ℚ))
    (margins : Option (ℚ × ℚ × ℚ × ℚ)) :
    (draw_segments segments_by_line cfg pd margins).2
      = ((List.range segments_by_line.length).map fun (i : ℕ) =>
          lineEmissions cfg (margins.getD (0, 0, 0, 0)).1
            ((viewDims cfg pd segments_by_line.length).1
              - (margins.getD (0, 0, 0, 0)).1
              - (margins.getD (0, 0, 0, 0)).2.2.1)
            ((margins.getD (0, 0, 0, 0)).2.1
              + 60 * cfg.line_spacing * ((i : ℚ) + 3 / 4))
            (segments_by_line.getD i [])).flatten
    ∧ ∀ x w y : ℚ, lineEmissions cfg x w y [] = [] := by
  constructor
  · show drawLinesFrom cfg (margins.getD (0, 0, 0, 0)).1
        ((viewDims cfg pd segments_by_line.length).1
          - (margins.getD (0, 0, 0, 0)).1 - (margins.getD (0, 0, 0, 0)).2.2.1)
        ((margins.getD (0, 0, 0, 0)).2.1 + lineHeight cfg * (3 / 4))
        segments_by_line = _
    rw [drawLinesFrom_eq]
    apply congrArg List.flatten
    apply List.map_congr_left
    intro i _
    congr 1
    show (margins.getD (0, 0, 0, 0)).2.1 + lineHeight cfg * (3 / 4)
        + (i : ℚ) * lineHeight cfg
      = (margins.getD (0, 0, 0, 0)).2.1
        + 60 * cfg.line_spacing * ((i : ℚ) + 3 / 4)
    rw [lineHeight]
    ring
  · intro x w y
    rfl

/-- Claim C9: when `page_dimensions` is absent the page width is the fixed
constant 1000 and the height is `max(1, lineCount) × 60 × line_spacing`;
zero lines still yield one line-height, and one empty plus one one-segment
line yield exactly two line-heights. -/
theorem draw_segments_page_size (cfg : LayoutConfig)
    (segments_by_line : List (List TextSegment))
    (margins : Option (ℚ × ℚ × ℚ × ℚ)) (s : TextSegment) :
    (draw_segments segments_by_line cfg none margins).1
      = (1000, ((max 1 segments_by_line.length : ℕ) : ℚ)
          * (60 * cfg.line_spacing))
    ∧ (draw_segments [] cfg none margins).1.2 = 60 * cfg.line_spacing
    ∧ (draw_segments [[], [s]] cfg none margins).1.2
      = 2 * (60 * cfg.line_spacing) := by
  refine ⟨rfl, ?_, ?_⟩
  · show ((max 1 0 : ℕ) : ℚ) * lineHeight cfg = 60 * cfg.line_spacing
    rw [lineHeight]
    norm_num
  · show ((max 1 2 : ℕ) : ℚ) * lineHeight cfg = 2 * (60 * cfg.line_spacing)
    rw [lineHeight]
    norm_num

/-! ## Segmenter lemmas -/

theorem charSegments_eq (alpha : Char → Bool) (d : SegDefaults)
    (line : List Char) :
    charSegments alpha d line
      = (line.filter alpha).map fun c => mkSegment d [c] := by
  induction line with
  | nil => rfl
  | cons c cs ih =>
      by_cases hc : alpha c
      · simp [charSegments, List.filter_cons, hc, ih]
      · simp [charSegments, List.filter_cons, hc, ih]

/-- Claim C7: in word mode the text is split into lines on newlines first
(empty lines kept as empty entries), each line yields one segment per
whitespace-delimited token with no empty tokens, and the concrete input
"ab  cd\nef" yields segment texts [["ab", "cd"], ["ef"]]. -/
theorem process_text_word_spec (alpha : Char → Bool) (d : SegDefaults)
    (text : List Char) :
    (process_text alpha text "word" d
      = (text.splitOn '\n').map fun line => (pySplit line).map (mkSegment d))
    ∧ (∀ line : List Char, (pySplit line).all (fun t => !t.isEmpty) = true)
    ∧ (process_text alpha ("ab  cd\nef".toList) "word" d).map
        (fun segs => segs.map TextSegment.text)
      = [[['a', 'b'], ['c', 'd']], [['e', 'f']]] := by
  refine ⟨rfl, ?_, ?_⟩
  · intro line
    rw [List.all_eq_true]
    intro t ht
    have hp := (List.mem_filter.mp ht).2
    cases t with
    | nil => simp at hp
    | cons c cs => rfl
  · rfl

/-- Claim C8: in character mode each line yields exactly one segment per
character belonging to the alphabet, in text order, every other character
silently dropped, so the segment count equals the supported-character
count. -/
theorem process_text_character_spec (alpha : Char → Bool) (d : SegDefaults)
    (text : List Char) :
    (process_text alpha text "character" d
      = (text.splitOn '\n').map fun line =>
          (line.filter alpha).map fun c => mkSegment d [c])
    ∧ ∀ line : List Char,
        (charSegments alpha d line).length = (line.filter alpha).length := by
  constructor
  · apply List.map_congr_left
    intro line _
    rw [if_neg (by decide), if_neg (by decide), if_pos rfl, charSegments_eq]
  · intro line
    rw [charSegments_eq]
    simp

/-! ## Backward-compatible write entry point -/

theorem optIdx_default {α : Type} (o : Option (List α)) (i : ℕ) (d : α)
    (h : o = none ∨ ∃ l, o = some l ∧ l.length ≤ i) : optIdx o i d = d := by
  rcases h with h | ⟨l, hl, hlen⟩
  · rw [h]; rfl
  · rw [hl, optIdx]
    exact dif_neg (by omega)

theorem write_getD (lines : List (List Char)) (biases : Option (List ℚ))
    (styles : Option (List ℤ)) (stroke_colors : Option (List String))
    (stroke_widths : Option (List ℚ)) (scales : Option (List ℚ))
    (i : ℕ) (h : i < lines.length) :
    (write lines biases styles stroke_colors stroke_widths scales).getD i []
      = [⟨lines.getD i [], optIdx styles i 0, optIdx biases i (1 / 2),
          optIdx stroke_colors i "black", optIdx stroke_widths i 2,
          optIdx scales i 1, none⟩] := by
  have h1 : i < (write lines biases styles stroke_colors stroke_widths
      scales).length := by
    simp [write]
    omega
  rw [List.getD_eq_getElem _ _ h1, List.getD_eq_getElem lines [] h]
  simp only [write, List.getElem_map, List.getElem_enum]

/-- Claim C10: the backward-compatible `write` entry point turns every
input line into exactly one single-segment line, and whenever a per-line
styling list is absent or has length ≤ i the segment of line `i` receives
the default for that field: style 0, bias 0.5, color "black", width 2.0,
scale 1.0. -/
theorem write_defaults_spec (lines : List (List Char))
    (biases : Option (List ℚ)) (styles : Option (List ℤ))
    (stroke_colors : Option (List String)) (stroke_widths : Option (List ℚ))
    (scales : Option (List ℚ)) :
    (write lines biases styles stroke_colors stroke_widths scales).length
      = lines.length
    ∧ ∀ i, i < lines.length →
        ((write lines biases styles stroke_colors stroke_widths
            scales).getD i []).length = 1
        ∧ (((write lines biases styles stroke_colors stroke_widths
            scales).getD i []).getD 0 default).text = lines.getD i []
        ∧ ((styles = none ∨ ∃ l, styles = some l ∧ l.length ≤ i) →
            (((write lines biases styles stroke_colors stroke_widths
              scales).getD i []).getD 0 default).style_id = 0)
        ∧ ((biases = none ∨ ∃ l, biases = some l ∧ l.length ≤ i) →
            (((write lines biases styles stroke_colors stroke_widths
              scales).getD i []).getD 0 default).bias = 1 / 2)
        ∧ ((stroke_colors = none ∨ ∃ l, stroke_colors = some l ∧ l.length ≤ i) →
            (((write lines biases styles stroke_colors stroke_widths
              scales).getD i []).getD 0 default).stroke_color = "black")
        ∧ ((stroke_widths = none ∨ ∃ l, stroke_widths = some l ∧ l.length ≤ i) →
            (((write lines biases styles stroke_colors stroke_widths
              scales).getD i []).getD 0 default).stroke_width = 2)
        ∧ ((scales = none ∨ ∃ l, scales = some l ∧ l.length ≤ i) →
            (((write lines biases styles stroke_colors stroke_widths
              scales).getD i []).getD 0 default).scale = 1) := by
  refine ⟨by simp [write], ?_⟩
  intro i h
  rw [write_getD lines biases styles stroke_colors stroke_widths scales i h]
  refine ⟨rfl, rfl, ?_, ?_, ?_, ?_, ?_⟩
  · intro hc
    show optIdx styles i 0 = 0
    exact optIdx_default styles i 0 hc
  · intro hc
    show optIdx biases i (1 / 2) = 1 / 2
    exact optIdx_default biases i (1 / 2) hc
  · intro hc
    show optIdx stroke_colors i "black" = "black"
    exact optIdx_default stroke_colors i "black" hc
  · intro hc
    show optIdx stroke_widths i 2 = 2
    exact optIdx_default stroke_widths i 2 hc
  · intro hc
    show optIdx scales i 1 = 1
    exact optIdx_default scales i 1 hc

/-- Witness for C10 at a concrete input: two lines, every styling list
absent or of length 1, queried at line index 1. -/
theorem write_defaults_spec_witness :
    (((write [['h', 'i'], ['y', 'o']] (some [1 / 4]) none (some ["red"])
        none (some [3])).getD 1 []).getD 0 default).style_id = 0
    ∧ (((write [['h', 'i'], ['y', 'o']] (some [1 / 4]) none (some ["red"])
        none (some [3])).getD 1 []).getD 0 default).bias = 1 / 2
    ∧ (((write [['h', 'i'], ['y', 'o']] (some [1 / 4]) none (some ["red"])
        none (some [3])).getD 1 []).getD 0 default).stroke_color = "black"
    ∧ (((write [['h', 'i'], ['y', 'o']] (some [1 / 4]) none (some ["red"])
        none (some [3])).getD 1 []).getD 0 default).stroke_width = 2
    ∧ (((write [['h', 'i'], ['y', 'o']] (some [1 / 4]) none (some ["red"])
        none (some [3])).getD 1 []).getD 0 default).scale = 1 := by
  have h := (write_defaults_spec [['h', 'i'], ['y', 'o']] (some [1 / 4]) none
    (some ["red"]) none (some [3])).2 1 (by decide)
  exact ⟨h.2.2.1 (Or.inl rfl),
    h.2.2.2.1 (Or.inr ⟨[1 / 4], rfl, by decide⟩),
    h.2.2.2.2.1 (Or.inr ⟨["red"], rfl, by decide⟩),
    h.2.2.2.2.2.1 (Or.inl rfl),
    h.2.2.2.2.2.2 (Or.inr ⟨[3], rfl, by decide⟩)⟩

end HW
